import Mathlib

set_option maxRecDepth 1000000

/-!
# Verification of chain-core address and withdrawal codecs

Shallow embedding of `src/chain-core/src/tx/data/address.rs` and
`src/chain-core/src/state/account/op/data/withdraw.rs`.

Conventions:
* Rust byte sequences (`&[u8]`, `Vec<u8>`, `[u8; N]`) are `List Nat`, each
  element morally `< 256`; where a fact depends on byte-ness it carries an
  explicit well-formedness hypothesis.
* Rust strings are `List Char` (all relevant data is ASCII).
* Fallible Rust functions return `Except`; functions whose Rust body can
  panic (`copy_from_slice` with mismatched lengths, `.expect`) return
  `RustOutcome`, which has an explicit `panicked` outcome.
* The SCALE codec (`parity_scale_codec` 1.x) and the `bech32` crate (0.7)
  are external dependencies of the source; their behaviour is embedded
  directly (fixed-width little-endian integers, compact length prefixes
  with canonicity checks, bech32 checksum/charset processing).
-/

/-! ## Bit and byte helpers -/

/-- Bitwise xor of the low `k` bits of two naturals, written with explicit
division and parity so that it reduces structurally (models `u32` xor for
values below `2 ^ 32`). -/
def xorBits : Nat → Nat → Nat → Nat
  | 0, _, _ => 0
  | k+1, a, b => (if (a + b) % 2 = 1 then 1 else 0) + 2 * xorBits k (a / 2) (b / 2)

/-- Little-endian byte rendering of `n` on `k` bytes (SCALE fixed-width
integer layout). -/
def toLE : Nat → Nat → List Nat
  | 0, _ => []
  | k+1, n => n % 256 :: toLE k (n / 256)

/-- Little-endian byte sequence read back as a natural number. -/
def fromLE : List Nat → Nat
  | [] => 0
  | b :: t => b + 256 * fromLE t

/-! ## SCALE codec primitives (parity_scale_codec 1.x) -/

/-- `Input::read_byte`: one byte or an end-of-input error. -/
def readByte : List Nat → Except String (Nat × List Nat)
  | [] => .error "Not enough data to fill buffer"
  | b :: rest => .ok (b, rest)

/-- `Input::read` of a fixed count of bytes: the next `k` bytes in order,
or an end-of-input error when fewer remain. -/
def readBytes : Nat → List Nat → Except String (List Nat × List Nat)
  | 0, bs => .ok ([], bs)
  | _+1, [] => .error "Not enough data to fill buffer"
  | k+1, b :: t =>
      match readBytes k t with
      | .ok (l, r2) => .ok (b :: l, r2)
      | .error e => .error e

/-- SCALE `Compact<u32>` encoding (length prefixes of collections); defined
for `n < 2 ^ 32`. -/
def encodeCompact (n : Nat) : List Nat :=
  if n ≤ 0x3F then [n * 4]
  else if n ≤ 0x3FFF then toLE 2 (n * 4 + 1)
  else if n ≤ 0x3FFFFFFF then toLE 4 (n * 4 + 2)
  else 3 :: toLE 4 n

/-- SCALE `Compact<u32>` decoding, with the canonical-form ("out of range")
checks of parity_scale_codec 1.x. -/
def decodeCompact : List Nat → Except String (Nat × List Nat)
  | [] => .error "Not enough data to fill buffer"
  | b0 :: r0 =>
      if b0 % 4 = 0 then .ok (b0 / 4, r0)
      else if b0 % 4 = 1 then
        match readBytes 1 r0 with
        | .error e => .error e
        | .ok (l, r1) =>
            if 0x3F < (b0 + 256 * fromLE l) / 4 then .ok ((b0 + 256 * fromLE l) / 4, r1)
            else .error "out of range decoding Compact"
      else if b0 % 4 = 2 then
        match readBytes 3 r0 with
        | .error e => .error e
        | .ok (l, r1) =>
            if 0x3FFF < (b0 + 256 * fromLE l) / 4 then .ok ((b0 + 256 * fromLE l) / 4, r1)
            else .error "out of range decoding Compact"
      else if b0 / 4 = 0 then
        match readBytes 4 r0 with
        | .error e => .error e
        | .ok (l, r1) =>
            if 0x3FFFFFFF < fromLE l then .ok (fromLE l, r1)
            else .error "out of range decoding Compact"
      else .error "unexpected prefix decoding Compact"

/-- SCALE `u64` encoding: 8 bytes little-endian. -/
def encodeU64 (n : Nat) : List Nat := toLE 8 n

/-- SCALE `u64` decoding: 8 bytes little-endian. -/
def decodeU64 (bs : List Nat) : Except String (Nat × List Nat) :=
  match readBytes 8 bs with
  | .error e => .error e
  | .ok (l, r) => .ok (fromLE l, r)

/-! ## ExtendedAddr: binary SCALE codec (from `address.rs`) -/

/-- `ExtendedAddr`: MAST of Or operations; `OrTree` records the Merkle tree
root (an `H256`, i.e. 32 bytes). -/
inductive ExtendedAddr where
  | OrTree (root : List Nat)
deriving DecidableEq, Repr

/-- `Encode for ExtendedAddr`: push the discriminant byte 0, then the 32
root bytes (SCALE `[u8; 32]` is the raw bytes). -/
def ExtendedAddr.encode : ExtendedAddr → List Nat
  | .OrTree aa => 0 :: aa

/-- `Decode for ExtendedAddr`: read the discriminant byte, accept only 0,
then read the 32 root bytes. -/
def ExtendedAddr.decode : List Nat → Except String (ExtendedAddr × List Nat)
  | [] => .error "Not enough data to fill buffer"
  | tag :: r =>
      match tag with
      | 0 =>
          match readBytes 32 r with
          | .error e => .error e
          | .ok (root, r2) => .ok (.OrTree root, r2)
      | _ => .error "No such variant in enum ExtendedAddr"

/-! ## Withdrawal transaction (from `withdraw.rs`) and its collaborators -/

/-- Modelled from the spec: `TxOut` (external collaborator, declared in
`crate::tx::data::output`) "carries an Address and a Coin value" and
implements the canonical codec contract; the coin value is a bounded
non-negative value carried as a `u64`-shaped field. The optional extra
field the spec leaves open ("possibly a timelock") is unspecified and
omitted. -/
structure TxOut where
  address : ExtendedAddr
  value : Nat
deriving DecidableEq, Repr

/-- Modelled from the spec: `TxOut` codec — fields in order, each via the
canonical codec. -/
def TxOut.encode (o : TxOut) : List Nat := o.address.encode ++ encodeU64 o.value

/-- Modelled from the spec: `TxOut` decoding, fields in order. -/
def TxOut.decode (bs : List Nat) : Except String (TxOut × List Nat) :=
  match ExtendedAddr.decode bs with
  | .error e => .error e
  | .ok (a, r) =>
      match decodeU64 r with
      | .error e => .error e
      | .ok (v, r2) => .ok (⟨a, v⟩, r2)

/-- Modelled from the spec: `TxAttributes` (external collaborator) is an
"opaque codec-compatible metadata blob", encoded/decoded verbatim as a
length-prefixed byte sequence. -/
structure TxAttributes where
  blob : List Nat
deriving DecidableEq, Repr

/-- Modelled from the spec: `TxAttributes` codec — compact length prefix
followed by the blob bytes. -/
def TxAttributes.encode (a : TxAttributes) : List Nat :=
  encodeCompact a.blob.length ++ a.blob

/-- Modelled from the spec: `TxAttributes` decoding. -/
def TxAttributes.decode (bs : List Nat) : Except String (TxAttributes × List Nat) :=
  match decodeCompact bs with
  | .error e => .error e
  | .ok (n, r) =>
      match readBytes n r with
      | .error e => .error e
      | .ok (l, r2) => .ok (⟨l⟩, r2)

/-- SCALE `Vec<TxOut>` element loop: decode exactly `count` elements,
propagating the first element error. -/
def decodeTxOuts : Nat → List Nat → Except String (List TxOut × List Nat)
  | 0, bs => .ok ([], bs)
  | k+1, bs =>
      match TxOut.decode bs with
      | .error e => .error e
      | .ok (o, r) =>
          match decodeTxOuts k r with
          | .error e => .error e
          | .ok (l, r2) => .ok (o :: l, r2)

/-- `WithdrawUnbondedTx`: nonce (a `u64` counter, modelled from the spec as
the external `Nonce` type), the new outputs to create, and attributes. -/
structure WithdrawUnbondedTx where
  nonce : Nat
  outputs : List TxOut
  attributes : TxAttributes
deriving DecidableEq, Repr

/-- `Encode for WithdrawUnbondedTx`: push nonce, then outputs (SCALE `Vec`:
compact length prefix then the elements in order), then attributes. -/
def WithdrawUnbondedTx.encode (tx : WithdrawUnbondedTx) : List Nat :=
  encodeU64 tx.nonce
    ++ (encodeCompact tx.outputs.length ++ (tx.outputs.map TxOut.encode).flatten)
    ++ tx.attributes.encode

/-- `Decode for WithdrawUnbondedTx`: nonce, then outputs, then attributes,
in that fixed order. -/
def WithdrawUnbondedTx.decode (bs : List Nat) :
    Except String (WithdrawUnbondedTx × List Nat) :=
  match decodeU64 bs with
  | .error e => .error e
  | .ok (nonce, r1) =>
      match decodeCompact r1 with
      | .error e => .error e
      | .ok (n, r2) =>
          match decodeTxOuts n r2 with
          | .error e => .error e
          | .ok (outs, r3) =>
              match TxAttributes.decode r3 with
              | .error e => .error e
              | .ok (attrs, r4) => .ok (⟨nonce, outs, attrs⟩, r4)

/-! ## Coin totaling (collaborator `crate::init::coin`) -/

/-- Modelled from the spec: the coin's maximum representable value (the
spec leaves the constant opaque — "bounded non-negative value"; the bound
itself plays no role beyond existing). -/
def coinMax : Nat := 10000000000000000000

/-- Modelled from the spec: the error of checked coin arithmetic
(`CoinError`), raised on overflow/out-of-range sums. -/
inductive CoinError where
  | OutOfBound
deriving DecidableEq, Repr

/-- Modelled from the spec: fold of checked coin addition — accumulate, and
fail with the first overflow past `coinMax`; no wrapping or clamping. -/
def sumCoinsGo : Nat → List Nat → Except CoinError Nat
  | acc, [] => .ok acc
  | acc, v :: t =>
      if coinMax < acc + v then .error .OutOfBound else sumCoinsGo (acc + v) t

/-- Modelled from the spec: `sum_coins` — checked sum of an iterator of coin
values starting from the additive identity. -/
def sum_coins (l : List Nat) : Except CoinError Nat := sumCoinsGo 0 l

/-- `WithdrawUnbondedTx::get_output_total`: the checked sum of all output
values (from `withdraw.rs`). -/
def WithdrawUnbondedTx.get_output_total (tx : WithdrawUnbondedTx) :
    Except CoinError Nat :=
  sum_coins (tx.outputs.map TxOut.value)

/-! ## Networks (collaborator `crate::init::network`) -/

/-- Modelled from the spec: the finite enumeration of networks. -/
inductive Network where
  | Mainnet
  | Testnet
  | Devnet
deriving DecidableEq, Repr

/-- Modelled from the spec: each network's unique bech32 human-readable
part; `Devnet ↦ "dcro"` is pinned by the source's own tests and the spec's
concrete vector, the others by the spec's naming scheme. -/
def get_bech32_human_part_from_network : Network → List Char
  | .Mainnet => [ 'c', 'r', 'o' ]
  | .Testnet => [ 't', 'c', 'r', 'o' ]
  | .Devnet => [ 'd', 'c', 'r', 'o' ]

/-! ## bech32 (external crate, version 0.7) -/

/-- bech32 data-part alphabet, indexed by the 5-bit value. -/
def bech32Charset : List Char :=
  [ 'q', 'p', 'z', 'r', 'y', '9', 'x', '8', 'g', 'f', '2', 't', 'v', 'd', 'w', '0',
    's', '3', 'j', 'n', '5', '4', 'k', 'h', 'c', 'e', '6', 'm', 'u', 'a', '7', 'l' ]

/-- Character for a 5-bit value. -/
def charsetChar (i : Nat) : Char := bech32Charset.getD i 'q'

/-- Index search in a character list. -/
def findIdxFrom : List Char → Char → Nat → Option Nat
  | [], _, _ => none
  | x :: xs, c, i => if x = c then some i else findIdxFrom xs c (i + 1)

/-- 5-bit value of a data-part character, if it is in the alphabet. -/
def charsetValue (c : Char) : Option Nat := findIdxFrom bech32Charset c 0

/-- Errors of the bech32 crate. -/
inductive Bech32Err where
  | MissingSeparator
  | InvalidChecksum
  | InvalidLength
  | InvalidChar (c : Char)
  | InvalidData (v : Nat)
  | InvalidPadding
  | MixedCase
deriving DecidableEq, Repr

/-- Is `c` an upper-case ASCII letter. -/
def isUpperAlpha (c : Char) : Bool := decide (65 ≤ c.toNat ∧ c.toNat ≤ 90)

/-- Is `c` a lower-case ASCII letter. -/
def isLowerAlpha (c : Char) : Bool := decide (97 ≤ c.toNat ∧ c.toNat ≤ 122)

/-- ASCII lower-casing of one character. -/
def lowerChar (c : Char) : Char :=
  if isUpperAlpha c then Char.ofNat (c.toNat + 32) else c

/-- bech32 generator constants. -/
def bech32Gen : List Nat := [0x3b6a57b2, 0x26508e6d, 0x1ea119fa, 0x3d4233dd, 0x2a1462b3]

/-- One step of the bech32 polymod checksum. -/
def polymodStep (chk v : Nat) : Nat :=
  let b := chk / 2 ^ 25
  let c0 := xorBits 32 ((chk % 2 ^ 25) * 32) v
  let c1 := if b % 2 = 1 then xorBits 32 c0 0x3b6a57b2 else c0
  let c2 := if b / 2 % 2 = 1 then xorBits 32 c1 0x26508e6d else c1
  let c3 := if b / 4 % 2 = 1 then xorBits 32 c2 0x1ea119fa else c2
  let c4 := if b / 8 % 2 = 1 then xorBits 32 c3 0x3d4233dd else c3
  if b / 16 % 2 = 1 then xorBits 32 c4 0x2a1462b3 else c4

/-- bech32 polymod over a value sequence, starting from 1. -/
def polymod (vs : List Nat) : Nat := vs.foldl polymodStep 1

/-- bech32 human-readable-part expansion: high 3 bits of each character,
a zero, then the low 5 bits of each character. -/
def hrpExpand (hrp : List Char) : List Nat :=
  hrp.map (fun c => c.toNat / 32) ++ [0] ++ hrp.map (fun c => c.toNat % 32)

/-- bech32 checksum creation for an hrp and data values. -/
def createChecksum (hrp : List Char) (data : List Nat) : List Nat :=
  let pm := xorBits 32 (polymod (hrpExpand hrp ++ data ++ [0, 0, 0, 0, 0, 0])) 1
  [ pm / 2 ^ 25 % 32, pm / 2 ^ 20 % 32, pm / 2 ^ 15 % 32,
    pm / 2 ^ 10 % 32, pm / 2 ^ 5 % 32, pm % 32 ]

/-- bech32 checksum verification. -/
def verifyChecksum (hrp : List Char) (data : List Nat) : Bool :=
  decide (polymod (hrpExpand hrp ++ data) = 1)

/-- `convert_bits(8, 5, pad = true)` loop: regroup bytes into 5-bit values,
left-padding the tail with zero bits (the `ToBase32` impl for bytes). -/
def toBase32Go : List Nat → Nat → Nat → List Nat
  | [], acc, bits => if bits = 0 then [] else [acc * 2 ^ (5 - bits) % 32]
  | b :: rest, acc, bits =>
      let acc2 := acc * 256 + b % 256
      let bits2 := bits + 8
      if 10 ≤ bits2 then
        acc2 / 2 ^ (bits2 - 5) % 32 :: acc2 / 2 ^ (bits2 - 10) % 32 ::
          toBase32Go rest acc2 (bits2 - 10)
      else
        acc2 / 2 ^ (bits2 - 5) % 32 :: toBase32Go rest acc2 (bits2 - 5)

/-- `[u8]::to_base32()`. -/
def toBase32 (bytes : List Nat) : List Nat := toBase32Go bytes 0 0

/-- `convert_bits(5, 8, pad = false)` loop: regroup 5-bit values into bytes;
rejects a value outside 5 bits, and rejects leftover bits that are 5 or more
or non-zero (the `Vec::<u8>::from_base32` impl). -/
def fromBase32Go : List Nat → Nat → Nat → Except Bech32Err (List Nat)
  | [], acc, bits =>
      if 5 ≤ bits then .error .InvalidPadding
      else if acc % 2 ^ bits ≠ 0 then .error .InvalidPadding
      else .ok []
  | v :: rest, acc, bits =>
      if 32 ≤ v then .error (.InvalidData v)
      else
        let acc2 := acc * 32 + v
        let bits2 := bits + 5
        if 8 ≤ bits2 then
          match fromBase32Go rest acc2 (bits2 - 8) with
          | .error e => .error e
          | .ok r => .ok (acc2 / 2 ^ (bits2 - 8) % 256 :: r)
        else fromBase32Go rest acc2 bits2

/-- `Vec::<u8>::from_base32`. -/
def fromBase32 (values : List Nat) : Except Bech32Err (List Nat) :=
  fromBase32Go values 0 0

/-- Does the character list contain both upper- and lower-case letters. -/
def hasMixedCase (s : List Char) : Bool := s.any isUpperAlpha && s.any isLowerAlpha

/-- bech32 hrp validation (`check_hrp`): non-empty, at most 83 characters,
every character in the ASCII range 33..=126, no mixed case. -/
def checkHrp (hrp : List Char) : Except Bech32Err Unit :=
  if hrp.length < 1 ∨ 83 < hrp.length then .error .InvalidLength
  else if ¬ hrp.all (fun c => decide (33 ≤ c.toNat ∧ c.toNat ≤ 126)) then
    .error (.InvalidChar ' ')
  else if hasMixedCase hrp then .error .MixedCase
  else .ok ()

/-- `bech32::encode(hrp, data)`: validate the hrp, lower-case it, then
render `hrp ++ "1" ++ data ++ checksum` through the alphabet. -/
def bech32Encode (hrp : List Char) (data : List Nat) : Except Bech32Err (List Char) :=
  match checkHrp hrp with
  | .error e => .error e
  | .ok _ =>
      let h := hrp.map lowerChar
      .ok (h ++ '1' :: (data ++ createChecksum h data).map charsetChar)

/-- Split a string at its last separator character `'1'`: returns the part
before and the part after, or `none` when there is no separator. -/
def splitLastSep : List Char → Option (List Char × List Char)
  | [] => none
  | c :: rest =>
      match splitLastSep rest with
      | some (h, d) => some (c :: h, d)
      | none => if c = '1' then some ([], rest) else none

/-- Data-part character conversion: look each (lower-cased) character up in
the alphabet, failing on the first unknown character. -/
def dataValues : List Char → Except Bech32Err (List Nat)
  | [] => .ok []
  | c :: rest =>
      match charsetValue (lowerChar c) with
      | none => .error (.InvalidChar c)
      | some v =>
          match dataValues rest with
          | .error e => .error e
          | .ok t => .ok (v :: t)

/-- `bech32::decode(s)`: split at the last `'1'`, validate the hrp and the
case discipline, convert the data characters, require at least the 6-symbol
checksum, verify it, and return the lower-cased hrp with the data values
(checksum stripped). -/
def bech32Decode (s : List Char) : Except Bech32Err (List Char × List Nat) :=
  match splitLastSep s with
  | none => .error .MissingSeparator
  | some (rawHrp, rawData) =>
      if rawHrp.length < 1 ∨ 83 < rawHrp.length then .error .InvalidLength
      else if ¬ rawHrp.all (fun c => decide (33 ≤ c.toNat ∧ c.toNat ≤ 126)) then
        .error (.InvalidChar ' ')
      else if hasMixedCase s then .error .MixedCase
      else
        match dataValues rawData with
        | .error e => .error e
        | .ok values =>
            if values.length < 6 then .error .InvalidLength
            else
              let hrp := rawHrp.map lowerChar
              if ¬ verifyChecksum hrp values then .error .InvalidChecksum
              else .ok (hrp, values.take (values.length - 6))

/-! ## Textual address codec (from `address.rs`) -/

/-- Outcome of a Rust computation that can also panic. -/
inductive RustOutcome (α : Type) (ε : Type) where
  | ok (a : α)
  | err (e : ε)
  | panicked
deriving DecidableEq, Repr

/-- Modelled from the spec: `CroAddressError` (declared in
`crate::init::address`) with the constructors the source uses; the
`Bech32Error` payload carries the bech32 error value (the source carries
its string rendering). -/
inductive CroAddressError where
  | InvalidNetwork
  | Bech32Error (e : Bech32Err)
  | ConvertError
deriving DecidableEq, Repr

/-- `ExtendedAddr::to_cro`: base32-expand the root and bech32-encode it
under the network's human part; the source unwraps the encoder result with
`.expect`, so an encoder error is a panic. -/
def ExtendedAddr.to_cro (a : ExtendedAddr) (network : Network) :
    RustOutcome (List Char) CroAddressError :=
  match a with
  | .OrTree hash =>
      match bech32Encode (get_bech32_human_part_from_network network) (toBase32 hash) with
      | .ok s => .ok s
      | .error _ => .panicked

/-- `ExtendedAddr::from_cro`: reject a string that does not start with the
network's human part (`InvalidNetwork`), then bech32-decode (errors become
`Bech32Error`), then regroup to bytes (errors become `ConvertError`), then
`copy_from_slice` into a 32-byte array — which panics unless the regrouped
length is exactly 32. -/
def ExtendedAddr.from_cro (encoded_addr : List Char) (network : Network) :
    RustOutcome ExtendedAddr CroAddressError :=
  if (get_bech32_human_part_from_network network).isPrefixOf encoded_addr then
    match bech32Decode encoded_addr with
    | .error e => .err (.Bech32Error e)
    | .ok (_, data) =>
        match fromBase32 data with
        | .error _ => .err .ConvertError
        | .ok hash =>
            if hash.length = 32 then .ok (.OrTree hash) else .panicked
  else .err .InvalidNetwork

/-- `FromStr for ExtendedAddr`: `from_cro` under the process-wide current
network (modelled as an explicit argument), with every error collapsed to
`ConvertError` by `map_err`. -/
def ExtendedAddr.from_str (current_network : Network) (s : List Char) :
    RustOutcome ExtendedAddr CroAddressError :=
  match ExtendedAddr.from_cro s current_network with
  | .ok a => .ok a
  | .err _ => .err .ConvertError
  | .panicked => .panicked

/-! ## Validity predicates -/

/-- Bytes are below 256. -/
def BytesWF (bs : List Nat) : Prop := ∀ b ∈ bs, b < 256

instance : DecidablePred BytesWF := fun bs =>
  inferInstanceAs (Decidable (∀ b ∈ bs, b < 256))

/-- A valid `ExtendedAddr`: the root is 32 bytes. -/
def ExtendedAddr.Valid : ExtendedAddr → Prop
  | .OrTree root => root.length = 32 ∧ BytesWF root

instance : DecidablePred ExtendedAddr.Valid := fun a =>
  match a with
  | .OrTree _ => inferInstanceAs (Decidable (_ ∧ _))

/-- A valid `TxOut`: valid address, `u64`-ranged value. -/
def TxOut.Valid (o : TxOut) : Prop := o.address.Valid ∧ o.value < 2 ^ 64

instance : DecidablePred TxOut.Valid := fun _ =>
  inferInstanceAs (Decidable (_ ∧ _))

/-- Valid `TxAttributes`: a blob of fewer than `2 ^ 32` genuine bytes. -/
def TxAttributes.Valid (a : TxAttributes) : Prop :=
  a.blob.length < 2 ^ 32 ∧ BytesWF a.blob

instance : DecidablePred TxAttributes.Valid := fun _ =>
  inferInstanceAs (Decidable (_ ∧ _))

/-- A valid `WithdrawUnbondedTx`: `u64`-ranged nonce, fewer than `2 ^ 32`
outputs, each output valid, valid attributes. -/
def WithdrawUnbondedTx.Valid (tx : WithdrawUnbondedTx) : Prop :=
  tx.nonce < 2 ^ 64 ∧ tx.outputs.length < 2 ^ 32 ∧
    (∀ o ∈ tx.outputs, o.Valid) ∧ tx.attributes.Valid

instance : DecidablePred WithdrawUnbondedTx.Valid := fun _ =>
  inferInstanceAs (Decidable (_ ∧ _ ∧ _ ∧ _))

/-! ## Concrete vectors -/

/-- The spec's concrete test root:
hex `0e7c045110b8dbf29765047380898919c5cb56f400112233445566778899aabb`. -/
def rootC7 : List Nat :=
  [14, 124, 4, 81, 16, 184, 219, 242, 151, 101, 4, 115, 128, 137, 137, 25,
   197, 203, 86, 244, 0, 17, 34, 51, 68, 85, 102, 119, 136, 153, 170, 187]

/-- The spec's concrete Devnet textual address for `rootC7`. -/
def addrC7 : List Char :=
  "dcro1pe7qg5gshrdl99m9q3ecpzvfr8zuk4h5qqgjyv6y24n80zye42as88x8tg".toList

/-- A checksum-valid Devnet-prefixed string whose data part regroups to 10
bytes (16 five-bit zero symbols), not 32. -/
def shortAddr : List Char := "dcro1qqqqqqqqqqqqqqqqn06y06".toList

/-- A checksum-valid string whose human-readable part `"crox"` strictly
extends the Mainnet prefix `"cro"`; data part is 52 zero symbols (the
base32 expansion of 32 zero bytes). -/
def croxAddr : List Char :=
  "crox1qqqqqqqqqqqqqqqqqqqqqqqqqqqqqqqqqqqqqqqqqqqqqqqqqqqqq3c9jk".toList

/-- The human-readable part of `croxAddr`. -/
def croxHrp : List Char := "crox".toList

/-- A small concrete withdrawal transaction used as evaluation input. -/
def txW : WithdrawUnbondedTx :=
  ⟨5, [⟨.OrTree (List.replicate 32 3), 100⟩], ⟨[1, 2]⟩⟩

/-- A concrete withdrawal transaction whose output values overflow the coin
bound. -/
def txBig : WithdrawUnbondedTx :=
  ⟨0, [⟨.OrTree (List.replicate 32 0), coinMax⟩, ⟨.OrTree (List.replicate 32 0), coinMax⟩], ⟨[]⟩⟩

/-! ## Generalities about `Except` and well-formed bytes -/

theorem exceptBind_ok_inv {ε α β : Type} {e : Except ε α} {f : α → Except ε β} {v : β}
    (h : (e >>= f) = .ok v) : ∃ a, e = .ok a ∧ f a = .ok v := by
  cases e with
  | ok a => exact ⟨a, rfl, h⟩
  | error err => exact Except.noConfusion h

theorem exceptDichotomy {ε α : Type} (e : Except ε α) :
    (∃ a, e = .ok a) ∨ ∃ err, e = .error err := by
  cases e with
  | ok a => exact Or.inl ⟨a, rfl⟩
  | error err => exact Or.inr ⟨err, rfl⟩

theorem bytesWF_append {xs ys : List Nat} :
    BytesWF (xs ++ ys) ↔ BytesWF xs ∧ BytesWF ys := by
  constructor
  · intro h
    exact ⟨fun b hb => h b (List.mem_append_left _ hb),
           fun b hb => h b (List.mem_append_right _ hb)⟩
  · intro ⟨h1, h2⟩ b hb
    rcases List.mem_append.mp hb with hx | hy
    · exact h1 b hx
    · exact h2 b hy

theorem bytesWF_cons {b : Nat} {t : List Nat} :
    BytesWF (b :: t) ↔ b < 256 ∧ BytesWF t := by
  constructor
  · intro h
    exact ⟨h b (by simp), fun x hx => h x (by simp [hx])⟩
  · intro ⟨hb, ht⟩ x hx
    rcases List.mem_cons.mp hx with rfl | hx
    · exact hb
    · exact ht x hx

/-! ## Little-endian byte lemmas -/

theorem toLE_length (k n : Nat) : (toLE k n).length = k := by
  induction k generalizing n with
  | zero => rfl
  | succ k ih => simp [toLE, ih]

theorem toLE_WF (k n : Nat) : BytesWF (toLE k n) := by
  induction k generalizing n with
  | zero => intro b hb; simp [toLE] at hb
  | succ k ih =>
      intro b hb
      simp only [toLE, List.mem_cons] at hb
      rcases hb with h | h
      · omega
      · exact ih _ _ h

theorem fromLE_toLE (k n : Nat) (h : n < 2 ^ (8 * k)) : fromLE (toLE k n) = n := by
  induction k generalizing n with
  | zero =>
      simp only [toLE, fromLE]
      simp only [Nat.mul_zero, pow_zero] at h
      omega
  | succ k ih =>
      have e : 8 * (k + 1) = 8 * k + 8 := by ring
      rw [e, pow_add] at h
      simp only [toLE, fromLE]
      rw [ih (n / 256) (by omega)]
      omega

theorem toLE_fromLE (l : List Nat) (h : BytesWF l) : toLE l.length (fromLE l) = l := by
  induction l with
  | nil => rfl
  | cons b t ih =>
      have hb : b < 256 := (bytesWF_cons.mp h).1
      have ht : BytesWF t := (bytesWF_cons.mp h).2
      simp only [List.length_cons, toLE, fromLE]
      rw [show (b + 256 * fromLE t) % 256 = b from by omega,
          show (b + 256 * fromLE t) / 256 = fromLE t from by omega,
          ih ht]

theorem fromLE_lt (l : List Nat) (h : BytesWF l) : fromLE l < 2 ^ (8 * l.length) := by
  induction l with
  | nil => simp [fromLE]
  | cons b t ih =>
      have hb : b < 256 := (bytesWF_cons.mp h).1
      have ht := ih (bytesWF_cons.mp h).2
      have e : 8 * (b :: t).length = 8 * t.length + 8 := by simp; ring
      rw [e, pow_add]
      simp only [fromLE]
      omega

/-! ## `readBytes` lemmas -/

theorem readBytes_split (k : Nat) (bs : List Nat) (h : k ≤ bs.length) :
    readBytes k bs = .ok (bs.take k, bs.drop k) := by
  induction k generalizing bs with
  | zero => simp [readBytes]
  | succ k ih =>
      match bs with
      | [] => simp at h
      | b :: t =>
          have ht : k ≤ t.length := by simpa using h
          simp only [readBytes, ih t ht, List.take_succ_cons, List.drop_succ_cons]

theorem readBytes_rt (k : Nat) (l r : List Nat) (h : l.length = k) :
    readBytes k (l ++ r) = .ok (l, r) := by
  subst h
  rw [readBytes_split l.length (l ++ r) (by simp), List.take_left, List.drop_left]

theorem readBytes_sound {k : Nat} {bs l r : List Nat}
    (h : readBytes k bs = .ok (l, r)) : bs = l ++ r ∧ l.length = k := by
  induction k generalizing bs l r with
  | zero =>
      simp only [readBytes, Except.ok.injEq, Prod.mk.injEq] at h
      simp [← h.1, ← h.2]
  | succ k ih =>
      match bs with
      | [] => exact Except.noConfusion h
      | b :: t =>
          simp only [readBytes] at h
          match hrec : readBytes k t with
          | .error e => rw [hrec] at h; exact Except.noConfusion h
          | .ok (l2, r2) =>
              rw [hrec] at h
              simp only [Except.ok.injEq, Prod.mk.injEq] at h
              obtain ⟨hl, hr⟩ := h
              obtain ⟨ht, hlen⟩ := ih hrec
              subst hr
              simp [← hl, ht, hlen]

theorem readBytes_short {k : Nat} {bs : List Nat} (h : bs.length < k) :
    ∃ e, readBytes k bs = .error e := by
  induction k generalizing bs with
  | zero => simp at h
  | succ k ih =>
      match bs with
      | [] => exact ⟨_, rfl⟩
      | b :: t =>
          have ht : t.length < k := by simpa using h
          obtain ⟨e, he⟩ := ih ht
          exact ⟨e, by simp only [readBytes, he]⟩

/-! ## Compact and `u64` codec lemmas -/

theorem fromLE_singleton (x : Nat) : fromLE [x] = x := by
  simp [fromLE]

theorem decodeCompact_cons4 (b0 b1 b2 b3 b4 : Nat) (r : List Nat)
    (h0 : b0 % 4 = 3) (h1 : b0 / 4 = 0) :
    decodeCompact (b0 :: b1 :: b2 :: b3 :: b4 :: r) =
      if 0x3FFFFFFF < fromLE [b1, b2, b3, b4] then .ok (fromLE [b1, b2, b3, b4], r)
      else .error "out of range decoding Compact" := by
  simp only [decodeCompact]
  rw [if_neg (by omega : ¬ b0 % 4 = 0), if_neg (by omega : ¬ b0 % 4 = 1),
      if_neg (by omega : ¬ b0 % 4 = 2), if_pos h1]
  simp only [show readBytes 4 (b1 :: b2 :: b3 :: b4 :: r) = .ok ([b1, b2, b3, b4], r) from rfl]

theorem decodeCompact_rt (n : Nat) (h : n < 2 ^ 32) (r : List Nat) :
    decodeCompact (encodeCompact n ++ r) = .ok (n, r) := by
  unfold encodeCompact
  split_ifs with h1 h2 h3
  · simp only [List.cons_append, List.nil_append, decodeCompact]
    rw [if_pos (by omega : n * 4 % 4 = 0)]
    rw [show n * 4 / 4 = n from by omega]
  · rw [show toLE 2 (n * 4 + 1) = (n * 4 + 1) % 256 :: [(n * 4 + 1) / 256 % 256] from rfl]
    simp only [List.cons_append, List.nil_append, decodeCompact]
    rw [if_neg (by omega : ¬ (n * 4 + 1) % 256 % 4 = 0),
        if_pos (by omega : (n * 4 + 1) % 256 % 4 = 1)]
    simp only [show readBytes 1 ((n * 4 + 1) / 256 % 256 :: r) =
          .ok ([(n * 4 + 1) / 256 % 256], r) from rfl, fromLE, Nat.mul_zero, Nat.add_zero]
    split_ifs with hc
    · simp only [Except.ok.injEq, Prod.mk.injEq, and_true]
      omega
    · exfalso; omega
  · rw [show toLE 4 (n * 4 + 2) = (n * 4 + 2) % 256 :: [(n * 4 + 2) / 256 % 256,
          (n * 4 + 2) / 256 / 256 % 256, (n * 4 + 2) / 256 / 256 / 256 % 256] from rfl]
    simp only [List.cons_append, List.nil_append, decodeCompact]
    rw [if_neg (by omega : ¬ (n * 4 + 2) % 256 % 4 = 0),
        if_neg (by omega : ¬ (n * 4 + 2) % 256 % 4 = 1),
        if_pos (by omega : (n * 4 + 2) % 256 % 4 = 2)]
    simp only [show readBytes 3 ((n * 4 + 2) / 256 % 256 :: (n * 4 + 2) / 256 / 256 % 256 ::
          (n * 4 + 2) / 256 / 256 / 256 % 256 :: r) =
          .ok ([(n * 4 + 2) / 256 % 256, (n * 4 + 2) / 256 / 256 % 256,
                (n * 4 + 2) / 256 / 256 / 256 % 256], r) from rfl,
        fromLE, Nat.mul_zero, Nat.add_zero]
    split_ifs with hc
    · simp only [Except.ok.injEq, Prod.mk.injEq, and_true]
      omega
    · exfalso; omega
  · rw [show toLE 4 n = n % 256 :: [n / 256 % 256, n / 256 / 256 % 256,
          n / 256 / 256 / 256 % 256] from rfl]
    simp only [List.cons_append, List.nil_append]
    rw [decodeCompact_cons4 3 (n % 256) (n / 256 % 256) (n / 256 / 256 % 256)
          (n / 256 / 256 / 256 % 256) r (by omega) (by omega)]
    simp only [fromLE, Nat.mul_zero, Nat.add_zero]
    split_ifs with hc
    · simp only [Except.ok.injEq, Prod.mk.injEq, and_true]
      omega
    · exfalso; omega

theorem encodeCompact_WF (n : Nat) : BytesWF (encodeCompact n) := by
  unfold encodeCompact
  split_ifs with h1 h2 h3
  · intro b hb
    simp only [List.mem_singleton] at hb
    omega
  · exact toLE_WF 2 _
  · exact toLE_WF 4 _
  · intro b hb
    simp only [List.mem_cons] at hb
    rcases hb with rfl | hb
    · omega
    · exact toLE_WF 4 n b hb

theorem decodeCompact_sound {bs : List Nat} {n : Nat} {rest : List Nat}
    (hwf : BytesWF bs) (h : decodeCompact bs = .ok (n, rest)) :
    bs = encodeCompact n ++ rest ∧ n < 2 ^ 32 := by
  match bs with
  | [] => exact Except.noConfusion h
  | b0 :: r0 =>
    have hb0 : b0 < 256 := (bytesWF_cons.mp hwf).1
    have hr0 : BytesWF r0 := (bytesWF_cons.mp hwf).2
    simp only [decodeCompact] at h
    split_ifs at h with h0 h1 h2 h3
    · simp only [Except.ok.injEq, Prod.mk.injEq] at h
      obtain ⟨hn, hrest⟩ := h
      subst hn hrest
      refine ⟨?_, by omega⟩
      unfold encodeCompact
      rw [if_pos (by omega : b0 / 4 ≤ 0x3F)]
      simp only [List.cons_append, List.nil_append, List.cons.injEq]
      exact ⟨by omega, trivial⟩
    · rcases hval : readBytes 1 r0 with e | ⟨l, r1⟩
      · rw [hval] at h
        exact Except.noConfusion h
      · simp only [hval] at h
        split_ifs at h with hc
        · simp only [Except.ok.injEq, Prod.mk.injEq] at h
          obtain ⟨hn, hrest⟩ := h
          obtain ⟨hr0eq, hlen⟩ := readBytes_sound hval
          have hlwf : BytesWF l := (bytesWF_append.mp (hr0eq ▸ hr0)).1
          have hflt : fromLE l < 256 := by
            have := fromLE_lt l hlwf
            rw [hlen] at this
            norm_num at this
            exact this
          have hl : toLE 1 (fromLE l) = l := by
            have := toLE_fromLE l hlwf
            rwa [hlen] at this
          refine ⟨?_, by omega⟩
          unfold encodeCompact
          rw [if_neg (by omega : ¬ n ≤ 0x3F), if_pos (by omega : n ≤ 0x3FFF)]
          rw [show n * 4 + 1 = b0 + 256 * fromLE l from by omega]
          rw [show toLE 2 (b0 + 256 * fromLE l) =
                (b0 + 256 * fromLE l) % 256 :: toLE 1 ((b0 + 256 * fromLE l) / 256) from rfl]
          rw [show (b0 + 256 * fromLE l) % 256 = b0 from by omega,
              show (b0 + 256 * fromLE l) / 256 = fromLE l from by omega, hl]
          rw [hr0eq, hrest]
          simp
    · rcases hval : readBytes 3 r0 with e | ⟨l, r1⟩
      · rw [hval] at h
        exact Except.noConfusion h
      · simp only [hval] at h
        split_ifs at h with hc
        · simp only [Except.ok.injEq, Prod.mk.injEq] at h
          obtain ⟨hn, hrest⟩ := h
          obtain ⟨hr0eq, hlen⟩ := readBytes_sound hval
          have hlwf : BytesWF l := (bytesWF_append.mp (hr0eq ▸ hr0)).1
          have hflt : fromLE l < 16777216 := by
            have := fromLE_lt l hlwf
            rw [hlen] at this
            norm_num at this
            exact this
          have hl : toLE 3 (fromLE l) = l := by
            have := toLE_fromLE l hlwf
            rwa [hlen] at this
          refine ⟨?_, by omega⟩
          unfold encodeCompact
          rw [if_neg (by omega : ¬ n ≤ 0x3F), if_neg (by omega : ¬ n ≤ 0x3FFF),
              if_pos (by omega : n ≤ 0x3FFFFFFF)]
          rw [show n * 4 + 2 = b0 + 256 * fromLE l from by omega]
          rw [show toLE 4 (b0 + 256 * fromLE l) =
                (b0 + 256 * fromLE l) % 256 :: toLE 3 ((b0 + 256 * fromLE l) / 256) from rfl]
          rw [show (b0 + 256 * fromLE l) % 256 = b0 from by omega,
              show (b0 + 256 * fromLE l) / 256 = fromLE l from by omega, hl]
          rw [hr0eq, hrest]
          simp
    · rcases hval : readBytes 4 r0 with e | ⟨l, r1⟩
      · rw [hval] at h
        exact Except.noConfusion h
      · simp only [hval] at h
        split_ifs at h with hc
        · simp only [Except.ok.injEq, Prod.mk.injEq] at h
          obtain ⟨hn, hrest⟩ := h
          obtain ⟨hr0eq, hlen⟩ := readBytes_sound hval
          have hlwf : BytesWF l := (bytesWF_append.mp (hr0eq ▸ hr0)).1
          have hflt : fromLE l < 4294967296 := by
            have := fromLE_lt l hlwf
            rw [hlen] at this
            norm_num at this
            exact this
          have hl : toLE 4 (fromLE l) = l := by
            have := toLE_fromLE l hlwf
            rwa [hlen] at this
          refine ⟨?_, by omega⟩
          unfold encodeCompact
          rw [if_neg (by omega : ¬ n ≤ 0x3F), if_neg (by omega : ¬ n ≤ 0x3FFF),
              if_neg (by omega : ¬ n ≤ 0x3FFFFFFF)]
          rw [show b0 = 3 from by omega, ← hn, hl, hr0eq, hrest]
          simp

theorem decodeU64_rt (n : Nat) (h : n < 2 ^ 64) (r : List Nat) :
    decodeU64 (encodeU64 n ++ r) = .ok (n, r) := by
  unfold decodeU64 encodeU64
  rw [readBytes_rt 8 (toLE 8 n) r (toLE_length 8 n)]
  simp only [fromLE_toLE 8 n h]

theorem encodeU64_WF (n : Nat) : BytesWF (encodeU64 n) := toLE_WF 8 n

theorem decodeU64_sound {bs : List Nat} {n : Nat} {rest : List Nat} (hwf : BytesWF bs)
    (h : decodeU64 bs = .ok (n, rest)) : bs = encodeU64 n ++ rest ∧ n < 2 ^ 64 := by
  unfold decodeU64 at h
  rcases hval : readBytes 8 bs with e | ⟨l, r⟩
  · rw [hval] at h
    exact Except.noConfusion h
  · simp only [hval] at h
    simp only [Except.ok.injEq, Prod.mk.injEq] at h
    obtain ⟨hn, hrest⟩ := h
    obtain ⟨hbs, hlen⟩ := readBytes_sound hval
    have hlwf : BytesWF l := (bytesWF_append.mp (hbs ▸ hwf)).1
    constructor
    · rw [hbs, hrest]
      unfold encodeU64
      rw [← hn]
      have := toLE_fromLE l hlwf
      rw [hlen] at this
      rw [this]
    · have := fromLE_lt l hlwf
      rw [hlen] at this
      norm_num at this
      omega

/-! ## ExtendedAddr codec lemmas -/

theorem addr_encode_WF {a : ExtendedAddr} (h : a.Valid) : BytesWF a.encode := by
  match a with
  | .OrTree root =>
      intro b hb
      simp only [ExtendedAddr.encode, List.mem_cons] at hb
      rcases hb with rfl | hb
      · omega
      · exact h.2 b hb

theorem addr_decode_rt (a : ExtendedAddr) (h : a.Valid) (r : List Nat) :
    ExtendedAddr.decode (a.encode ++ r) = .ok (a, r) := by
  match a with
  | .OrTree root =>
      have hlen : root.length = 32 := h.1
      simp only [ExtendedAddr.encode, List.cons_append, ExtendedAddr.decode]
      rw [readBytes_rt 32 root r hlen]

theorem addr_decode_sound {bs : List Nat} {a : ExtendedAddr} {rest : List Nat}
    (h : ExtendedAddr.decode bs = .ok (a, rest)) :
    bs = a.encode ++ rest ∧ (BytesWF bs → a.Valid) := by
  match bs with
  | [] => exact Except.noConfusion h
  | 0 :: r =>
      simp only [ExtendedAddr.decode] at h
      rcases hval : readBytes 32 r with e | ⟨l, r2⟩
      · rw [hval] at h
        exact Except.noConfusion h
      · simp only [hval] at h
        simp only [Except.ok.injEq, Prod.mk.injEq] at h
        obtain ⟨ha, hrest⟩ := h
        obtain ⟨hr, hlen⟩ := readBytes_sound hval
        subst ha hrest
        constructor
        · rw [hr]
          simp [ExtendedAddr.encode]
        · intro hwf
          have hrwf : BytesWF r := (bytesWF_cons.mp hwf).2
          exact ⟨hlen, (bytesWF_append.mp (hr ▸ hrwf)).1⟩
  | (t+1) :: r =>
      simp only [ExtendedAddr.decode] at h
      exact Except.noConfusion h

/-! ## TxOut codec lemmas -/

theorem txout_encode_WF {o : TxOut} (h : o.Valid) : BytesWF o.encode :=
  bytesWF_append.mpr ⟨addr_encode_WF h.1, encodeU64_WF o.value⟩

theorem txout_decode_rt (o : TxOut) (h : o.Valid) (r : List Nat) :
    TxOut.decode (o.encode ++ r) = .ok (o, r) := by
  unfold TxOut.decode TxOut.encode
  rw [List.append_assoc, addr_decode_rt o.address h.1 (encodeU64 o.value ++ r)]
  simp only [decodeU64_rt o.value h.2 r]

theorem txout_decode_sound {bs : List Nat} {o : TxOut} {rest : List Nat} (hwf : BytesWF bs)
    (h : TxOut.decode bs = .ok (o, rest)) : bs = o.encode ++ rest ∧ o.Valid := by
  unfold TxOut.decode at h
  rcases hval : ExtendedAddr.decode bs with e | ⟨a, r⟩
  · rw [hval] at h
    exact Except.noConfusion h
  · simp only [hval] at h
    rcases hval2 : decodeU64 r with e | ⟨v, r2⟩
    · rw [hval2] at h
      exact Except.noConfusion h
    · simp only [hval2] at h
      simp only [Except.ok.injEq, Prod.mk.injEq] at h
      obtain ⟨ho, hrest⟩ := h
      obtain ⟨hbs, hva⟩ := addr_decode_sound hval
      have hrwf : BytesWF r := (bytesWF_append.mp (hbs ▸ hwf)).2
      obtain ⟨hr, hv⟩ := decodeU64_sound hrwf hval2
      subst ho hrest
      constructor
      · rw [hbs, hr]
        simp [TxOut.encode, List.append_assoc]
      · exact ⟨hva hwf, hv⟩

/-! ## TxAttributes codec lemmas -/

theorem attrs_encode_WF {a : TxAttributes} (h : a.Valid) : BytesWF a.encode :=
  bytesWF_append.mpr ⟨encodeCompact_WF a.blob.length, h.2⟩

theorem attrs_decode_rt (a : TxAttributes) (h : a.Valid) (r : List Nat) :
    TxAttributes.decode (a.encode ++ r) = .ok (a, r) := by
  unfold TxAttributes.decode TxAttributes.encode
  rw [List.append_assoc, decodeCompact_rt a.blob.length h.1 (a.blob ++ r)]
  simp only [readBytes_rt a.blob.length a.blob r rfl]

theorem attrs_decode_sound {bs : List Nat} {a : TxAttributes} {rest : List Nat}
    (hwf : BytesWF bs) (h : TxAttributes.decode bs = .ok (a, rest)) :
    bs = a.encode ++ rest ∧ a.Valid := by
  unfold TxAttributes.decode at h
  rcases hval : decodeCompact bs with e | ⟨n, r⟩
  · rw [hval] at h
    exact Except.noConfusion h
  · simp only [hval] at h
    rcases hval2 : readBytes n r with e | ⟨l, r2⟩
    · rw [hval2] at h
      exact Except.noConfusion h
    · simp only [hval2] at h
      simp only [Except.ok.injEq, Prod.mk.injEq] at h
      obtain ⟨ha, hrest⟩ := h
      obtain ⟨hbs, hn⟩ := decodeCompact_sound hwf hval
      have hrwf : BytesWF r := (bytesWF_append.mp (hbs ▸ hwf)).2
      obtain ⟨hr, hlen⟩ := readBytes_sound hval2
      subst ha hrest
      constructor
      · rw [hbs, hr]
        simp [TxAttributes.encode, hlen, List.append_assoc]
      · exact ⟨by rw [hlen]; omega, (bytesWF_append.mp (hr ▸ hrwf)).1⟩

/-! ## Output vector and withdrawal codec lemmas -/

theorem flatten_WF {ll : List (List Nat)} (h : ∀ l ∈ ll, BytesWF l) :
    BytesWF ll.flatten := by
  intro b hb
  rw [List.mem_flatten] at hb
  obtain ⟨l, hl, hbl⟩ := hb
  exact h l hl b hbl

theorem decodeTxOuts_rt (outs : List TxOut) (h : ∀ o ∈ outs, o.Valid) (r : List Nat) :
    decodeTxOuts outs.length ((outs.map TxOut.encode).flatten ++ r) = .ok (outs, r) := by
  induction outs generalizing r with
  | nil => simp [decodeTxOuts]
  | cons o t ih =>
      simp only [List.map_cons, List.flatten_cons, List.length_cons, decodeTxOuts,
        List.append_assoc]
      rw [txout_decode_rt o (h o (by simp)) ((t.map TxOut.encode).flatten ++ r)]
      simp only [ih (fun x hx => h x (by simp [hx])) r]

theorem decodeTxOuts_sound {k : Nat} {bs : List Nat} {l : List TxOut} {rest : List Nat}
    (hwf : BytesWF bs) (h : decodeTxOuts k bs = .ok (l, rest)) :
    bs = (l.map TxOut.encode).flatten ++ rest ∧ l.length = k ∧ ∀ o ∈ l, o.Valid := by
  induction k generalizing bs l rest with
  | zero =>
      simp only [decodeTxOuts, Except.ok.injEq, Prod.mk.injEq] at h
      obtain ⟨hl, hrest⟩ := h
      subst hl hrest
      simp
  | succ k ih =>
      simp only [decodeTxOuts] at h
      rcases hval : TxOut.decode bs with e | ⟨o, r⟩
      · rw [hval] at h
        exact Except.noConfusion h
      · simp only [hval] at h
        rcases hval2 : decodeTxOuts k r with e | ⟨t, r2⟩
        · rw [hval2] at h
          exact Except.noConfusion h
        · simp only [hval2] at h
          simp only [Except.ok.injEq, Prod.mk.injEq] at h
          obtain ⟨hl, hrest⟩ := h
          obtain ⟨hbs, hov⟩ := txout_decode_sound hwf hval
          have hrwf : BytesWF r := (bytesWF_append.mp (hbs ▸ hwf)).2
          obtain ⟨hr, hlen, hall⟩ := ih hrwf hval2
          subst hl hrest
          refine ⟨?_, by simp [hlen], ?_⟩
          · rw [hbs, hr]
            simp [List.append_assoc]
          · intro x hx
            rcases List.mem_cons.mp hx with rfl | hx
            · exact hov
            · exact hall x hx

theorem withdraw_encode_WF {tx : WithdrawUnbondedTx} (h : tx.Valid) :
    BytesWF tx.encode := by
  obtain ⟨hn, hlen, hall, hattr⟩ := h
  unfold WithdrawUnbondedTx.encode
  refine bytesWF_append.mpr ⟨bytesWF_append.mpr ⟨encodeU64_WF tx.nonce,
    bytesWF_append.mpr ⟨encodeCompact_WF tx.outputs.length, ?_⟩⟩,
    attrs_encode_WF hattr⟩
  refine flatten_WF ?_
  intro l hl
  rw [List.mem_map] at hl
  obtain ⟨o, ho, rfl⟩ := hl
  exact txout_encode_WF (hall o ho)

theorem withdraw_decode_rt (tx : WithdrawUnbondedTx) (h : tx.Valid)
    (r : List Nat) : WithdrawUnbondedTx.decode (tx.encode ++ r) = .ok (tx, r) := by
  obtain ⟨hn, hlen, hall, hattr⟩ := h
  unfold WithdrawUnbondedTx.decode WithdrawUnbondedTx.encode
  simp only [List.append_assoc]
  simp only [decodeU64_rt tx.nonce hn, decodeCompact_rt tx.outputs.length hlen,
    decodeTxOuts_rt tx.outputs hall, attrs_decode_rt tx.attributes hattr]

theorem withdraw_decode_sound {bs : List Nat} {tx : WithdrawUnbondedTx}
    {rest : List Nat} (hwf : BytesWF bs)
    (h : WithdrawUnbondedTx.decode bs = .ok (tx, rest)) :
    bs = tx.encode ++ rest ∧ tx.Valid := by
  unfold WithdrawUnbondedTx.decode at h
  rcases hval1 : decodeU64 bs with e | ⟨nonce, r1⟩
  · rw [hval1] at h
    exact Except.noConfusion h
  · simp only [hval1] at h
    rcases hval2 : decodeCompact r1 with e | ⟨k, r2⟩
    · rw [hval2] at h
      exact Except.noConfusion h
    · simp only [hval2] at h
      rcases hval3 : decodeTxOuts k r2 with e | ⟨outs, r3⟩
      · rw [hval3] at h
        exact Except.noConfusion h
      · simp only [hval3] at h
        rcases hval4 : TxAttributes.decode r3 with e | ⟨attrs, r4⟩
        · rw [hval4] at h
          exact Except.noConfusion h
        · simp only [hval4] at h
          simp only [Except.ok.injEq, Prod.mk.injEq] at h
          obtain ⟨htx, hrest⟩ := h
          obtain ⟨hbs1, hnb⟩ := decodeU64_sound hwf hval1
          have hwf1 : BytesWF r1 := (bytesWF_append.mp (hbs1 ▸ hwf)).2
          obtain ⟨hbs2, hkb⟩ := decodeCompact_sound hwf1 hval2
          have hwf2 : BytesWF r2 := (bytesWF_append.mp (hbs2 ▸ hwf1)).2
          obtain ⟨hbs3, hklen, hall⟩ := decodeTxOuts_sound hwf2 hval3
          have hwf3 : BytesWF r3 := (bytesWF_append.mp (hbs3 ▸ hwf2)).2
          obtain ⟨hbs4, hattr⟩ := attrs_decode_sound hwf3 hval4
          subst htx hrest
          constructor
          · rw [hbs1, hbs2, hbs3, hbs4]
            simp only [WithdrawUnbondedTx.encode, ← hklen, List.append_assoc]
          · exact ⟨hnb, by rw [hklen]; omega, hall, hattr⟩

/-! ## Truncated-input rejection -/

theorem addr_decode_truncated {a : ExtendedAddr} {p s : List Nat} (hv : a.Valid)
    (hsplit : a.encode = p ++ s) (hs : s ≠ []) :
    ∃ e, ExtendedAddr.decode p = .error e := by
  rcases exceptDichotomy (ExtendedAddr.decode p) with ⟨⟨v, rest⟩, hok⟩ | ⟨e, herr⟩
  · exfalso
    obtain ⟨hp, _⟩ := addr_decode_sound hok
    have hwfenc : BytesWF a.encode := addr_encode_WF hv
    have hwfp : BytesWF p := (bytesWF_append.mp (hsplit ▸ hwfenc)).1
    have hvv : v.Valid := (addr_decode_sound hok).2 hwfp
    have h1 : ExtendedAddr.decode a.encode = .ok (a, []) := by
      have := addr_decode_rt a hv []
      simpa using this
    have h2 : ExtendedAddr.decode a.encode = .ok (v, rest ++ s) := by
      rw [hsplit, hp, List.append_assoc]
      exact addr_decode_rt v hvv (rest ++ s)
    rw [h1] at h2
    simp only [Except.ok.injEq, Prod.mk.injEq] at h2
    exact hs (List.append_eq_nil.mp h2.2.symm).2
  · exact ⟨e, herr⟩

theorem withdraw_decode_truncated {tx : WithdrawUnbondedTx} {p s : List Nat}
    (hv : tx.Valid) (hsplit : tx.encode = p ++ s) (hs : s ≠ []) :
    ∃ e, WithdrawUnbondedTx.decode p = .error e := by
  rcases exceptDichotomy (WithdrawUnbondedTx.decode p) with ⟨⟨v, rest⟩, hok⟩ | ⟨e, herr⟩
  · exfalso
    have hwfenc : BytesWF tx.encode := withdraw_encode_WF hv
    have hwfp : BytesWF p := (bytesWF_append.mp (hsplit ▸ hwfenc)).1
    obtain ⟨hp, hvv⟩ := withdraw_decode_sound hwfp hok
    have h1 : WithdrawUnbondedTx.decode tx.encode = .ok (tx, []) := by
      have := withdraw_decode_rt tx hv []
      simpa using this
    have h2 : WithdrawUnbondedTx.decode tx.encode = .ok (v, rest ++ s) := by
      rw [hsplit, hp, List.append_assoc]
      exact withdraw_decode_rt v hvv (rest ++ s)
    rw [h1] at h2
    simp only [Except.ok.injEq, Prod.mk.injEq] at h2
    exact hs (List.append_eq_nil.mp h2.2.symm).2
  · exact ⟨e, herr⟩

/-! ## Coin-sum behaviour -/

theorem sumCoinsGo_spec (l : List Nat) (acc : Nat) (hacc : acc ≤ coinMax) :
    (acc + l.sum ≤ coinMax → sumCoinsGo acc l = .ok (acc + l.sum)) ∧
    (coinMax < acc + l.sum → sumCoinsGo acc l = .error .OutOfBound) := by
  induction l generalizing acc with
  | nil =>
      constructor
      · intro _
        simp [sumCoinsGo]
      · intro hlt
        exfalso
        simp only [List.sum_nil] at hlt
        omega
  | cons v t ih =>
      constructor
      · intro hle
        simp only [List.sum_cons] at hle ⊢
        simp only [sumCoinsGo]
        rw [if_neg (by omega : ¬ coinMax < acc + v)]
        rw [((ih (acc + v) (by omega)).1 (by omega : acc + v + t.sum ≤ coinMax))]
        simp only [Except.ok.injEq]
        omega
      · intro hlt
        simp only [List.sum_cons] at hlt
        simp only [sumCoinsGo]
        by_cases hov : coinMax < acc + v
        · rw [if_pos hov]
        · rw [if_neg hov]
          exact (ih (acc + v) (by omega)).2 (by omega)

/-! ## Textual-codec shape lemmas -/

theorem to_cro_ok (root : List Nat) (network : Network) :
    ExtendedAddr.to_cro (.OrTree root) network =
      .ok (get_bech32_human_part_from_network network ++ '1' ::
        (toBase32 root ++ createChecksum (get_bech32_human_part_from_network network)
          (toBase32 root)).map charsetChar) := by
  cases network <;> rfl

theorem from_cro_invalid_iff (s : List Char) (n : Network) :
    ExtendedAddr.from_cro s n = .err .InvalidNetwork ↔
      (get_bech32_human_part_from_network n).isPrefixOf s = false := by
  unfold ExtendedAddr.from_cro
  by_cases hp : (get_bech32_human_part_from_network n).isPrefixOf s = true
  · rw [if_pos hp]
    constructor
    · intro h
      exfalso
      rcases hd : bech32Decode s with e | ⟨hrp, data⟩
      · simp only [hd] at h
        simp at h
      · simp only [hd] at h
        rcases hf : fromBase32 data with e2 | hash
        · simp only [hf] at h
          simp at h
        · simp only [hf] at h
          by_cases hl : hash.length = 32
          · rw [if_pos hl] at h
            simp at h
          · rw [if_neg hl] at h
            simp at h
    · intro h
      rw [hp] at h
      exact Bool.noConfusion h
  · rw [if_neg hp]
    have hp2 : (get_bech32_human_part_from_network n).isPrefixOf s = false :=
      Bool.not_eq_true _ ▸ Bool.of_not_eq_true hp
    constructor
    · intro _
      exact hp2
    · intro _
      rfl

/-! ## Claims -/

/-- C1: binary codec round-trip — for every valid `ExtendedAddr` and every
valid `WithdrawUnbondedTx`, decoding the encoding succeeds and returns the
original value (consuming the whole input). -/
theorem claim_C1 (a : ExtendedAddr) (tx : WithdrawUnbondedTx) (ha : a.Valid)
    (htx : tx.Valid) :
    ExtendedAddr.decode a.encode = .ok (a, []) ∧
    WithdrawUnbondedTx.decode tx.encode = .ok (tx, []) := by
  constructor
  · have := addr_decode_rt a ha []
    simpa using this
  · have := withdraw_decode_rt tx htx []
    simpa using this

theorem claim_C1_witness :
    ExtendedAddr.decode (ExtendedAddr.OrTree (List.replicate 32 3)).encode =
        .ok (.OrTree (List.replicate 32 3), []) ∧
    WithdrawUnbondedTx.decode txW.encode = .ok (txW, []) :=
  claim_C1 (.OrTree (List.replicate 32 3)) txW (by decide) (by decide)

/-- C2: the claim says `from_cro` returns a wrong-decoded-length error when
the regrouped data is not exactly 32 bytes; the code instead panics
(`copy_from_slice` with mismatched lengths). On the checksum-valid Devnet
string `shortAddr` the bech32 stage succeeds with 16 zero symbols, the
regroup stage yields 10 bytes, and `from_cro` panics. -/
theorem claim_C2 :
    ExtendedAddr.from_cro shortAddr Network.Devnet = .panicked ∧
    bech32Decode shortAddr =
      .ok (get_bech32_human_part_from_network Network.Devnet, List.replicate 16 0) ∧
    fromBase32 (List.replicate 16 0) = .ok (List.replicate 10 0) :=
  ⟨rfl, rfl, rfl⟩

/-- C3 counterexample: binary decoding does not reject trailing garbage —
on an encoding of an address followed by an extra byte `7`, decode succeeds
and leaves the trailing byte unconsumed, instead of returning a decode
error as the claim states. -/
theorem claim_C3_counterexample :
    ExtendedAddr.decode ((ExtendedAddr.OrTree (List.replicate 32 0)).encode ++ [7]) =
      .ok (.OrTree (List.replicate 32 0), [7]) := rfl

/-- C3 (amended): binary decode accepts only genuine encodings (never
substitutes a default value; the decoded value's re-encoding is exactly the
consumed prefix), rejects every truncated encoding with a decode error,
and rejects unknown discriminants with a decode error; it never panics (it
is total into ok/error). Trailing bytes beyond what the type consumes are
left unread rather than rejected. -/
theorem claim_C3 :
    (∀ (bs : List Nat) (a : ExtendedAddr) (rest : List Nat),
        ExtendedAddr.decode bs = .ok (a, rest) → bs = a.encode ++ rest) ∧
    (∀ (bs : List Nat) (tx : WithdrawUnbondedTx) (rest : List Nat), BytesWF bs →
        WithdrawUnbondedTx.decode bs = .ok (tx, rest) → bs = tx.encode ++ rest) ∧
    (∀ (a : ExtendedAddr) (p s : List Nat), a.Valid → a.encode = p ++ s → s ≠ [] →
        ∃ e, ExtendedAddr.decode p = .error e) ∧
    (∀ (tx : WithdrawUnbondedTx) (p s : List Nat), tx.Valid → tx.encode = p ++ s →
        s ≠ [] → ∃ e, WithdrawUnbondedTx.decode p = .error e) ∧
    (∀ (b : Nat) (bs : List Nat), b ≠ 0 →
        ∃ e, ExtendedAddr.decode (b :: bs) = .error e) := by
  refine ⟨?_, ?_, ?_, ?_, ?_⟩
  · intro bs a rest h
    exact (addr_decode_sound h).1
  · intro bs tx rest hwf h
    exact (withdraw_decode_sound hwf h).1
  · intro a p s hv hsplit hs
    exact addr_decode_truncated hv hsplit hs
  · intro tx p s hv hsplit hs
    exact withdraw_decode_truncated hv hsplit hs
  · intro b bs hb
    match b, hb with
    | t+1, _ => exact ⟨_, rfl⟩

theorem claim_C3_witness :
    ((0 :: List.replicate 32 9 : List Nat) =
        (ExtendedAddr.OrTree (List.replicate 32 9)).encode ++ []) ∧
    (txW.encode = txW.encode ++ []) ∧
    (∃ e, ExtendedAddr.decode [0, 0, 0] = .error e) ∧
    (∃ e, WithdrawUnbondedTx.decode [] = .error e) ∧
    (∃ e, ExtendedAddr.decode (7 :: []) = .error e) :=
  ⟨claim_C3.1 (0 :: List.replicate 32 9) (.OrTree (List.replicate 32 9)) [] rfl,
   claim_C3.2.1 txW.encode txW [] (by decide) rfl,
   claim_C3.2.2.1 (.OrTree (List.replicate 32 0)) [0, 0, 0] (List.replicate 30 0)
     (by decide) (by decide) (by decide),
   claim_C3.2.2.2.1 txW [] txW.encode (by decide) rfl (by decide),
   claim_C3.2.2.2.2 7 [] (by decide)⟩

/-- C4: network isolation with a distinct error class — every string that
does not start with the expected network's human-readable prefix makes
`from_cro` fail with the wrong-network error (a constructor distinct from
the checksum-failure and conversion errors); in particular, encoding a
32-byte root under one network and decoding under a distinct network fails
with that error. -/
theorem claim_C4 :
    (∀ (s : List Char) (n : Network),
        (get_bech32_human_part_from_network n).isPrefixOf s = false →
        ExtendedAddr.from_cro s n = .err .InvalidNetwork) ∧
    (∀ (n1 n2 : Network) (root : List Nat) (s : List Char), n1 ≠ n2 →
        root.length = 32 → BytesWF root →
        ExtendedAddr.to_cro (.OrTree root) n1 = .ok s →
        ExtendedAddr.from_cro s n2 = .err .InvalidNetwork) := by
  constructor
  · intro s n h
    exact (from_cro_invalid_iff s n).mpr h
  · intro n1 n2 root s hne _hlen _hwf htc
    rw [to_cro_ok root n1] at htc
    injection htc with hs
    subst hs
    cases n1 <;> cases n2 <;> first | exact absurd rfl hne | rfl

theorem claim_C4_witness :
    ExtendedAddr.from_cro [ 'z' ] Network.Devnet = .err .InvalidNetwork ∧
    ExtendedAddr.from_cro addrC7 Network.Mainnet = .err .InvalidNetwork :=
  ⟨claim_C4.1 [ 'z' ] .Devnet rfl,
   claim_C4.2 .Devnet .Mainnet rootC7 addrC7 (by decide) (by decide) (by decide) rfl⟩

/-- C5: discriminant handling — every byte sequence starting with a
non-zero byte is rejected with the unknown-variant error; every byte
sequence starting with `0x00` followed by at least 32 bytes decodes to
`OrTree` of the next 32 bytes. -/
theorem claim_C5 :
    (∀ (b : Nat) (bs : List Nat), b ≠ 0 →
      ExtendedAddr.decode (b :: bs) = .error "No such variant in enum ExtendedAddr") ∧
    (∀ bs : List Nat, 32 ≤ bs.length →
      ExtendedAddr.decode (0 :: bs) = .ok (.OrTree (bs.take 32), bs.drop 32)) := by
  constructor
  · intro b bs hb
    match b, hb with
    | t+1, _ => rfl
  · intro bs hlen
    simp only [ExtendedAddr.decode]
    rw [readBytes_split 32 bs hlen]

theorem claim_C5_witness :
    ExtendedAddr.decode (1 :: List.replicate 32 0) =
        .error "No such variant in enum ExtendedAddr" ∧
    ExtendedAddr.decode (0 :: List.replicate 33 7) =
      .ok (.OrTree ((List.replicate 33 7).take 32), (List.replicate 33 7).drop 32) :=
  ⟨claim_C5.1 1 (List.replicate 32 0) (by decide),
   claim_C5.2 (List.replicate 33 7) (by decide)⟩

/-- C6: `get_output_total` returns the exact checked sum of the output
values when it fits the coin bound, and the overflow error otherwise — it
never wraps, clamps, or truncates. -/
theorem claim_C6 (tx : WithdrawUnbondedTx) :
    ((tx.outputs.map TxOut.value).sum ≤ coinMax →
      tx.get_output_total = .ok ((tx.outputs.map TxOut.value).sum)) ∧
    (coinMax < (tx.outputs.map TxOut.value).sum →
      tx.get_output_total = .error .OutOfBound) := by
  have hspec := sumCoinsGo_spec (tx.outputs.map TxOut.value) 0 (by unfold coinMax; omega)
  unfold WithdrawUnbondedTx.get_output_total sum_coins
  constructor
  · intro hle
    have h1 := hspec.1 (by omega)
    simpa using h1
  · intro hlt
    exact hspec.2 (by omega)

theorem claim_C6_witness :
    WithdrawUnbondedTx.get_output_total txW = .ok ((txW.outputs.map TxOut.value).sum) ∧
    WithdrawUnbondedTx.get_output_total txBig = .error .OutOfBound :=
  ⟨(claim_C6 txW).1 (by decide), (claim_C6 txBig).2 (by decide)⟩

/-- C7: the concrete vector — `rootC7` encodes on Devnet to exactly
`addrC7`; decoding `addrC7` on Devnet returns `OrTree rootC7`; decoding it
on Mainnet fails with the wrong-network error. -/
theorem claim_C7 :
    ExtendedAddr.to_cro (.OrTree rootC7) Network.Devnet = .ok addrC7 ∧
    ExtendedAddr.from_cro addrC7 Network.Devnet = .ok (.OrTree rootC7) ∧
    ExtendedAddr.from_cro addrC7 Network.Mainnet = .err .InvalidNetwork :=
  ⟨rfl, rfl, rfl⟩

/-- C8: textual encoding is infallible on well-formed input — for every
32-byte root and every network, `to_cro` returns `ok` (with the exact
bech32 rendering); the internal encode-failure branch guarded by `expect`
is unreachable. -/
theorem claim_C8 (root : List Nat) (network : Network) (_hlen : root.length = 32)
    (_hwf : BytesWF root) :
    ExtendedAddr.to_cro (.OrTree root) network =
      .ok (get_bech32_human_part_from_network network ++ '1' ::
        (toBase32 root ++ createChecksum (get_bech32_human_part_from_network network)
          (toBase32 root)).map charsetChar) :=
  to_cro_ok root network

theorem claim_C8_witness :
    ExtendedAddr.to_cro (.OrTree (List.replicate 32 0)) Network.Mainnet =
      .ok (get_bech32_human_part_from_network Network.Mainnet ++ '1' ::
        (toBase32 (List.replicate 32 0) ++
          createChecksum (get_bech32_human_part_from_network Network.Mainnet)
            (toBase32 (List.replicate 32 0))).map charsetChar) :=
  claim_C8 (List.replicate 32 0) .Mainnet (by decide) (by decide)

/-- C9: the `FromStr` interface erases the error taxonomy — whenever
`from_cro` under the current network fails with any error, `from_str`
returns `ConvertError`. -/
theorem claim_C9 (net : Network) (s : List Char) (e : CroAddressError)
    (h : ExtendedAddr.from_cro s net = .err e) :
    ExtendedAddr.from_str net s = .err .ConvertError := by
  unfold ExtendedAddr.from_str
  rw [h]

theorem claim_C9_witness :
    ExtendedAddr.from_str Network.Mainnet [ 'x' ] = .err .ConvertError :=
  claim_C9 .Mainnet [ 'x' ] .InvalidNetwork rfl

/-- C10: the network check is a string-prefix test, not an exact
human-readable-part match — `from_cro s n` fails with the wrong-network
error exactly when `s` does not start with `n`'s prefix; and the
checksum-valid string `croxAddr`, whose human-readable part `"crox"`
strictly extends Mainnet's prefix `"cro"`, passes the check and is
accepted by `from_cro` on Mainnet. -/
theorem claim_C10 :
    (∀ (s : List Char) (n : Network),
      ExtendedAddr.from_cro s n = .err .InvalidNetwork ↔
        (get_bech32_human_part_from_network n).isPrefixOf s = false) ∧
    ((get_bech32_human_part_from_network Network.Mainnet).isPrefixOf croxAddr = true ∧
      croxHrp ≠ get_bech32_human_part_from_network Network.Mainnet ∧
      (get_bech32_human_part_from_network Network.Mainnet).isPrefixOf croxHrp = true ∧
      bech32Decode croxAddr = .ok (croxHrp, List.replicate 52 0) ∧
      ExtendedAddr.from_cro croxAddr Network.Mainnet = .ok (.OrTree (List.replicate 32 0))) :=
  ⟨from_cro_invalid_iff, rfl, by decide, rfl, rfl, rfl⟩
